import Mathlib

/-!
Verification of the state-reconciliation glue of the gojs-functional-react-basic
repository.  The definitions below are a shallow embedding of the code in
src/src/App.tsx (the App component: handleModelChange, handleInputChange,
handleRelinkChange, handleDiagramEvent, refreshNodeIndex / refreshLinkIndex)
and of the key-minting functions configured on the GoJS model in the
DiagramWrapper component (makeUniqueKeyFunction / makeUniqueLinkKeyFunction).

Modelling conventions:
- a GoJS data record (go.ObjectData) is its identifying integer key plus a
  string-keyed attribute mapping covering the remaining fields ('text',
  'color', 'loc', and for links 'from'/'to' encoded as strings); the key is
  held in a dedicated field because the inspector renders the key row
  read-only (Inspector row component, `disabled={props.id === 'key'}`), so
  no code path under verification writes to it;
- a JS Map (the two key -> array-index maps, and the temporary
  modified-data maps inside handleModelChange) is an association list with
  first-match lookup and in-place-replacing insertion, exactly the observable
  get/set behaviour the code uses;
- the immer `produce` calls are modelled functionally: each handler is a
  total function from the previous AppState (React state plus the two index
  maps, which are fields of the same component) to the next AppState.  Note
  that immer drafts do not alias: `draft.selectedData` and the array entry it
  was copied from are finalized as independent values, which is why the code
  itself re-points the selection whenever it writes the matching array slot;
- JS array index assignment `narr[idx] = nd` is modelled by List.set, which
  is out-of-bounds-silent; the JS semantics (growing a sparse array) differs
  only in states that violate the index/array invariant proved below, states
  the component never reaches;
- the `while` loops of the key-minting functions are modelled with explicit
  fuel; fuel `used.length + 1` is enough by pigeonhole to reach the first
  free key, which the minting lemmas below prove.
-/

/-- Association-list lookup: first binding wins, mirroring JS Map.get /
property access on a plain object. -/
def alGet {κ α : Type} [DecidableEq κ] : List (κ × α) → κ → Option α
  | [], _ => none
  | (k', v) :: rest, k => if k' = k then some v else alGet rest k

/-- Association-list update: replaces the existing binding in place, else
appends, mirroring JS Map.set / property assignment on a plain object. -/
def alSet {κ α : Type} [DecidableEq κ] : List (κ × α) → κ → α → List (κ × α)
  | [], k, v => [(k, v)]
  | (k', v') :: rest, k, v =>
    if k' = k then (k, v) :: rest else (k', v') :: alSet rest k v

/-- A diagram data record: integer key plus string attribute mapping
(go.ObjectData as used by App.tsx). -/
structure ObjectData where
  key : Int
  attrs : List (String × String)
deriving DecidableEq

/-- One field edit on a record: `data[path] = value` in
handleInputChange (App.tsx:272).  The key row of the inspector is disabled,
so `path` is never the key. -/
def setField (d : ObjectData) (path value : String) : ObjectData :=
  { d with attrs := alSet d.attrs path value }

/-- The App component state: the useImmer diagram state (App.tsx:33-52)
together with the two key -> array-index maps (App.tsx:30-31), which live in
the same component. -/
structure AppState where
  nodeDataArray : List ObjectData
  linkDataArray : List ObjectData
  modelData : List (String × Bool)
  selectedData : Option ObjectData
  skipsDiagramUpdate : Bool
  mapNodeKeyIdx : List (Int × Nat)
  mapLinkKeyIdx : List (Int × Nat)
deriving DecidableEq

/-- go.IncrementalData: the change descriptor handleModelChange receives
(App.tsx:172-179). -/
structure IncrementalData where
  insertedNodeKeys : Option (List Int)
  modifiedNodeData : Option (List ObjectData)
  removedNodeKeys : Option (List Int)
  insertedLinkKeys : Option (List Int)
  modifiedLinkData : Option (List ObjectData)
  removedLinkKeys : Option (List Int)
  modelData : Option (List (String × Bool))
deriving DecidableEq

/-- The all-absent change descriptor, used to build concrete descriptors. -/
def emptyChange : IncrementalData :=
  { insertedNodeKeys := none, modifiedNodeData := none, removedNodeKeys := none
    insertedLinkKeys := none, modifiedLinkData := none, removedLinkKeys := none
    modelData := none }

/-- Index rebuild: embeds refreshNodeIndex and refreshLinkIndex
(App.tsx:62-79), which are identical up to naming.  The forEach over the
array with its running position is the accumulator recursion here. -/
def refreshIndexAux : List ObjectData → Nat → List (Int × Nat) → List (Int × Nat)
  | [], _, m => m
  | nd :: rest, i, m => refreshIndexAux rest (i + 1) (alSet m nd.key i)

/-- refreshNodeIndex / refreshLinkIndex (App.tsx:62-79): fresh map, scan the
array in order assigning position = scan order. -/
def refreshIndex (arr : List ObjectData) : List (Int × Nat) :=
  refreshIndexAux arr 0 []

/-- The modified-records loop of handleModelChange (App.tsx:187-198 for
nodes, 221-232 for links): for every modified record whose key is indexed,
overwrite the record at its indexed position, and re-point the selection if
it holds the same key. -/
def modLoop (m : List (Int × Nat)) :
    List ObjectData → List ObjectData → Option ObjectData →
    List ObjectData × Option ObjectData
  | [], arr, sel => (arr, sel)
  | nd :: rest, arr, sel =>
    match alGet m nd.key with
    | some idx =>
      let sel2 : Option ObjectData :=
        match sel with
        | some s0 => if s0.key = nd.key then some nd else some s0
        | none => none
      modLoop m rest (arr.set idx nd) sel2
    | none => modLoop m rest arr sel

/-- The temporary key -> record map handleModelChange builds from the
modified-records list (App.tsx:182-189, 223): insertion-order fold, later
records with the same key replacing earlier ones. -/
def buildModMap (mods : List ObjectData) : List (Int × ObjectData) :=
  mods.foldl (fun m nd => alSet m nd.key nd) []

/-- The inserted-keys loop of handleModelChange (App.tsx:199-207 for nodes,
233-241 for links): for every inserted key that has a record in the
modified-data map and no index entry yet, extend the index with the current
array length and append the record; otherwise do nothing. -/
def insLoop (modMap : List (Int × ObjectData)) :
    List Int → List ObjectData → List (Int × Nat) →
    List ObjectData × List (Int × Nat)
  | [], arr, m => (arr, m)
  | k :: rest, arr, m =>
    match alGet modMap k, alGet m k with
    | some nd, none => insLoop modMap rest (arr ++ [nd]) (alSet m nd.key arr.length)
    | _, _ => insLoop modMap rest arr m

/-- The removed-keys step of handleModelChange (App.tsx:209-218 for nodes,
243-252 for links): when a removal list is present, filter out every record
whose key it contains and rebuild the index from the filtered array; when
absent, leave array and index alone. -/
def applyRemovals (rem : Option (List Int)) (arr : List ObjectData)
    (m : List (Int × Nat)) : List ObjectData × List (Int × Nat) :=
  match rem with
  | some rks =>
    let f := arr.filter (fun nd => !(rks.contains nd.key))
    (f, refreshIndex f)
  | none => (arr, m)

/-- handleModelChange (App.tsx:172-260): node modifications, node
insertions, node removals, then the same for links, then wholesale metadata
replacement, then set skipsDiagramUpdate. -/
def handleModelChange (s : AppState) (obj : IncrementalData) : AppState :=
  let modifiedNodeMap := buildModMap (obj.modifiedNodeData.getD [])
  let modifiedLinkMap := buildModMap (obj.modifiedLinkData.getD [])
  let pn := modLoop s.mapNodeKeyIdx (obj.modifiedNodeData.getD [])
    s.nodeDataArray s.selectedData
  let pi := insLoop modifiedNodeMap (obj.insertedNodeKeys.getD [])
    pn.1 s.mapNodeKeyIdx
  let pr := applyRemovals obj.removedNodeKeys pi.1 pi.2
  let qn := modLoop s.mapLinkKeyIdx (obj.modifiedLinkData.getD [])
    s.linkDataArray pn.2
  let qi := insLoop modifiedLinkMap (obj.insertedLinkKeys.getD [])
    qn.1 s.mapLinkKeyIdx
  let qr := applyRemovals obj.removedLinkKeys qi.1 qi.2
  { nodeDataArray := pr.1
    linkDataArray := qr.1
    modelData := obj.modelData.getD s.modelData
    selectedData := qn.2
    skipsDiagramUpdate := true
    mapNodeKeyIdx := pr.2
    mapLinkKeyIdx := qr.2 }

/-- A sequence of change descriptors applied in arrival order. -/
def applySeq (s : AppState) (changes : List IncrementalData) : AppState :=
  changes.foldl handleModelChange s

/-- handleInputChange (App.tsx:268-291): mutate the selected record's field
unconditionally; on blur (commit), write the mutated record back into the
owning array (negative key means link) at its indexed position and clear the
skip flag; if the key is not indexed the write is skipped.  The source
comment notes the handler is only reached with a non-null selection; the
none branch returns the state unchanged. -/
def handleInputChange (s : AppState) (path value : String) (isBlur : Bool) :
    AppState :=
  match s.selectedData with
  | none => s
  | some sel0 =>
    let data := setField sel0 path value
    if isBlur then
      if data.key < 0 then
        match alGet s.mapLinkKeyIdx data.key with
        | some idx =>
          { s with selectedData := some data
                   linkDataArray := s.linkDataArray.set idx data
                   skipsDiagramUpdate := false }
        | none => { s with selectedData := some data }
      else
        match alGet s.mapNodeKeyIdx data.key with
        | some idx =>
          { s with selectedData := some data
                   nodeDataArray := s.nodeDataArray.set idx data
                   skipsDiagramUpdate := false }
        | none => { s with selectedData := some data }
    else
      { s with selectedData := some data }

/-- handleRelinkChange (App.tsx:297-301): replace the metadata mapping
wholesale with a single-field object and clear the skip flag. -/
def handleRelinkChange (s : AppState) (value : Bool) : AppState :=
  { s with modelData := [("canRelink", value)], skipsDiagramUpdate := false }

/-- The payload of a ChangedSelection event: the first selected part, a node
or a link identified by key, or nothing. -/
inductive DiagramSelection where
  | nodeSel (key : Int)
  | linkSel (key : Int)
deriving DecidableEq

/-- handleDiagramEvent, ChangedSelection case (App.tsx:86-115): resolve the
selected part's key through the matching index and point selectedData at the
record found there; with no selected part, clear the selection. -/
def handleDiagramEvent (s : AppState) (sel : Option DiagramSelection) :
    AppState :=
  match sel with
  | some (DiagramSelection.nodeSel k) =>
    match alGet s.mapNodeKeyIdx k with
    | some idx => { s with selectedData := s.nodeDataArray[idx]? }
    | none => s
  | some (DiagramSelection.linkSel k) =>
    match alGet s.mapLinkKeyIdx k with
    | some idx => { s with selectedData := s.linkDataArray[idx]? }
    | none => s
  | none => { s with selectedData := none }

/-- Fueled upward scan: `while (used contains k) k++`, the loop of
makeUniqueKeyFunction (DiagramWrapper, part_000:66-71). -/
def findFreeUp (used : List Int) : Nat → Int → Int
  | 0, k => k
  | fuel + 1, k => if used.contains k then findFreeUp used fuel (k + 1) else k

/-- Fueled downward scan: `while (used contains k) k--`, the loop of
makeUniqueLinkKeyFunction (DiagramWrapper, part_000:73-78). -/
def findFreeDown (used : List Int) : Nat → Int → Int
  | 0, k => k
  | fuel + 1, k => if used.contains k then findFreeDown used fuel (k - 1) else k

/-- makeUniqueKeyFunction (DiagramWrapper, part_000:66-71): start from
`data.key || 1` (an absent or zero key is falsy and defaults to 1) and
increment past every key already in the model.  `used` is the set of node
keys the model holds, the keys findNodeDataForKey answers for. -/
def makeUniqueKeyFunction (used : List Int) (dataKey : Option Int) : Int :=
  let k0 : Int :=
    match dataKey with
    | some k => if k = 0 then 1 else k
    | none => 1
  findFreeUp used (used.length + 1) k0

/-- makeUniqueLinkKeyFunction (DiagramWrapper, part_000:73-78): start from
`data.key || -1` and decrement past every link key already in the model. -/
def makeUniqueLinkKeyFunction (used : List Int) (dataKey : Option Int) : Int :=
  let k0 : Int :=
    match dataKey with
    | some k => if k = 0 then -1 else k
    | none => -1
  findFreeDown used (used.length + 1) k0

/-- Modelled from the spec: the key-minting rule as section 6 words it,
"new node keys are minted ... by incrementing from existing maxima until an
unused value is found" - start at the existing maximum node key and
increment until unused.  Stated only to compare against the code's
makeUniqueKeyFunction, which starts from the supplied key or 1 instead. -/
def specMintNodeKey (used : List Int) : Int :=
  findFreeUp used (used.length + 1) (used.foldl max 0)

/-- The initial canonical state (App.tsx:33-52), with both indexes as the
startup effect (App.tsx:54-57) computes them. -/
def initNodes : List ObjectData :=
  [ { key := 0, attrs := [("text", "Alpha"), ("color", "lightblue"), ("loc", "0 0")] }
  , { key := 1, attrs := [("text", "Beta"), ("color", "orange"), ("loc", "150 0")] }
  , { key := 2, attrs := [("text", "Gamma"), ("color", "lightgreen"), ("loc", "0 150")] }
  , { key := 3, attrs := [("text", "Delta"), ("color", "pink"), ("loc", "150 150")] } ]

/-- Initial link data (App.tsx:40-46). -/
def initLinks : List ObjectData :=
  [ { key := -1, attrs := [("from", "0"), ("to", "1")] }
  , { key := -2, attrs := [("from", "0"), ("to", "2")] }
  , { key := -3, attrs := [("from", "1"), ("to", "1")] }
  , { key := -4, attrs := [("from", "2"), ("to", "3")] }
  , { key := -5, attrs := [("from", "3"), ("to", "0")] } ]

/-- The App component's state right after mount. -/
def initialAppState : AppState :=
  { nodeDataArray := initNodes
    linkDataArray := initLinks
    modelData := [("canRelink", true)]
    selectedData := none
    skipsDiagramUpdate := false
    mapNodeKeyIdx := refreshIndex initNodes
    mapLinkKeyIdx := refreshIndex initLinks }

/-- The index/array consistency invariant of section 3 of the spec: the
index maps key k to position i exactly when the record at position i of the
array carries key k. -/
def keyInv (m : List (Int × Nat)) (arr : List ObjectData) : Prop :=
  ∀ k i, alGet m k = some i ↔ Option.map ObjectData.key arr[i]? = some k

/-! Basic association-list lemmas. -/

theorem alGet_alSet {κ α : Type} [DecidableEq κ] (m : List (κ × α)) (k k' : κ) (v : α) :
    alGet (alSet m k v) k' = if k = k' then some v else alGet m k' := by
  induction m with
  | nil => by_cases h : k = k' <;> simp [alGet, alSet, h]
  | cons hd tl ih =>
    obtain ⟨k0, v0⟩ := hd
    by_cases h0 : k0 = k
    · subst h0
      by_cases h : k0 = k' <;> simp [alGet, alSet, h]
    · by_cases h1 : k0 = k'
      · subst h1
        have hk : ¬ k = k0 := fun hh => h0 hh.symm
        simp [alGet, alSet, h0, hk]
      · simp [alGet, alSet, h0, h1, ih]

/-! Consequences of the index/array invariant. -/

theorem keyInv_bound {m : List (Int × Nat)} {arr : List ObjectData}
    (h : keyInv m arr) {k : Int} {i : Nat} (hk : alGet m k = some i) :
    i < arr.length := by
  by_contra hlt
  have h2 := (h k i).1 hk
  rw [List.getElem?_eq_none (Nat.le_of_not_lt hlt)] at h2
  simp at h2

theorem keyInv_inj {m : List (Int × Nat)} {arr : List ObjectData}
    (h : keyInv m arr) {k k' : Int} {i : Nat}
    (hk : alGet m k = some i) (hk' : alGet m k' = some i) : k = k' := by
  have h1 := (h k i).1 hk
  have h2 := (h k' i).1 hk'
  rw [h1] at h2
  exact Option.some.inj h2

theorem keyInv_nodup {m : List (Int × Nat)} {arr : List ObjectData}
    (h : keyInv m arr) : (arr.map ObjectData.key).Nodup := by
  rw [List.nodup_iff_injective_get]
  intro i j hij
  have hi : (arr.map ObjectData.key)[i.1]? = some ((arr.map ObjectData.key).get i) :=
    List.getElem?_eq_getElem i.2
  have hj : (arr.map ObjectData.key)[j.1]? = some ((arr.map ObjectData.key).get j) :=
    List.getElem?_eq_getElem j.2
  rw [hij] at hi
  rw [List.getElem?_map] at hi hj
  have hgi := (h ((arr.map ObjectData.key).get j) i.1).2 hi
  have hgj := (h ((arr.map ObjectData.key).get j) j.1).2 hj
  rw [hgi] at hgj
  exact Fin.ext (Option.some.inj hgj)

/-! Characterization of refreshIndex, App.tsx:62-79.  The library findIdx?
carries an explicit start offset in this toolchain, which matches the
running position of the forEach; the two small lemmas below restate its
none/lower-bound behaviour for an arbitrary start offset. -/

theorem findIdxAux_none {α : Type} (p : α → Bool) :
    ∀ (l : List α) (i0 : Nat),
      List.findIdx? p l i0 = none ↔ ∀ x ∈ l, p x = false := by
  intro l
  induction l with
  | nil => intro i0; simp [List.findIdx?]
  | cons a l ih =>
    intro i0
    rw [List.findIdx?_cons]
    by_cases ha : p a
    · simp [ha]
    · simp only [ha, Bool.false_eq_true, if_false, ih (i0 + 1), List.mem_cons]
      constructor
      · intro hh x hx
        cases hx with
        | inl h => rw [h]; exact Bool.eq_false_iff.2 ha
        | inr h => exact hh x h
      · intro hh x hx
        exact hh x (Or.inr hx)

theorem findIdxAux_ge {α : Type} (p : α → Bool) :
    ∀ (l : List α) (i0 j : Nat), List.findIdx? p l i0 = some j → i0 ≤ j := by
  intro l
  induction l with
  | nil => intro i0 j hh; simp [List.findIdx?] at hh
  | cons a l ih =>
    intro i0 j hh
    rw [List.findIdx?_cons] at hh
    by_cases ha : p a
    · rw [if_pos ha] at hh
      exact Nat.le_of_eq (Option.some.inj hh)
    · rw [if_neg ha] at hh
      exact Nat.le_of_succ_le (ih (i0 + 1) j hh)

theorem alGet_refreshIndexAux (arr : List ObjectData)
    (hnd : (arr.map ObjectData.key).Nodup) :
    ∀ (i0 : Nat) (m : List (Int × Nat)) (k : Int),
      alGet (refreshIndexAux arr i0 m) k =
        match arr.findIdx? (fun nd => nd.key == k) i0 with
        | some j => some j
        | none => alGet m k := by
  induction arr with
  | nil => intro i0 m k; simp [refreshIndexAux, List.findIdx?]
  | cons nd rest ih =>
    intro i0 m k
    rw [List.map_cons, List.nodup_cons] at hnd
    by_cases hk : nd.key = k
    · have hnone : rest.findIdx? (fun x => x.key == k) (i0 + 1) = none := by
        rw [findIdxAux_none]
        intro x hx
        simp only [beq_eq_false_iff_ne, ne_eq]
        intro hxk
        exact hnd.1 (hk ▸ hxk ▸ List.mem_map_of_mem ObjectData.key hx)
      rw [refreshIndexAux, ih hnd.2, hnone, List.findIdx?_cons]
      simp [alGet_alSet, hk]
    · rw [refreshIndexAux, ih hnd.2, List.findIdx?_cons]
      have : (nd.key == k) = false := beq_eq_false_iff_ne.2 hk
      rw [this]
      simp only [Bool.false_eq_true, if_false]
      cases rest.findIdx? (fun x => x.key == k) (i0 + 1) with
      | none => simp [alGet_alSet, hk]
      | some j => rfl

theorem findIdx?_key_iff (arr : List ObjectData)
    (hnd : (arr.map ObjectData.key).Nodup) (k : Int) :
    ∀ (i0 i : Nat),
      arr.findIdx? (fun nd => nd.key == k) i0 = some (i0 + i) ↔
        Option.map ObjectData.key arr[i]? = some k := by
  induction arr with
  | nil => intro i0 i; simp [List.findIdx?]
  | cons nd rest ih =>
    intro i0 i
    rw [List.map_cons, List.nodup_cons] at hnd
    rw [List.findIdx?_cons]
    by_cases hk : nd.key = k
    · rw [if_pos (beq_iff_eq.2 hk)]
      cases i with
      | zero => simp [hk]
      | succ j =>
        constructor
        · intro hh
          have := Option.some.inj hh
          omega
        · intro hh
          rw [List.getElem?_cons_succ] at hh
          exfalso
          cases hgj : rest[j]? with
          | none => rw [hgj] at hh; simp at hh
          | some d =>
            rw [hgj] at hh
            have hdk : d.key = k := by simpa using hh
            have hdmem : d ∈ rest := by
              obtain ⟨hlt, heq⟩ := List.getElem?_eq_some_iff.1 hgj
              exact heq ▸ List.getElem_mem hlt
            exact hnd.1 (hk ▸ hdk ▸ List.mem_map_of_mem ObjectData.key hdmem)
    · rw [if_neg (by simp [hk])]
      cases i with
      | zero =>
        simp only [Nat.add_zero, List.getElem?_cons_zero, Option.map_some]
        constructor
        · intro hh
          exfalso
          have hge := findIdxAux_ge (fun x => x.key == k) rest (i0 + 1) (i0 + 0) hh
          omega
        · intro hh
          exact absurd (Option.some.inj hh) hk
      | succ j =>
        have : i0 + (j + 1) = (i0 + 1) + j := by omega
        rw [this, ih hnd.2 (i0 + 1) j, List.getElem?_cons_succ]

theorem keyInv_refresh (arr : List ObjectData)
    (hnd : (arr.map ObjectData.key).Nodup) : keyInv (refreshIndex arr) arr := by
  intro k i
  rw [refreshIndex, alGet_refreshIndexAux arr hnd 0 [] k]
  cases hfi : arr.findIdx? (fun nd => nd.key == k) 0 with
  | none =>
    simp only [alGet]
    constructor
    · intro hh; cases hh
    · intro hh
      have h2 := (findIdx?_key_iff arr hnd k 0 i).2 hh
      rw [Nat.zero_add] at h2
      rw [hfi] at h2
      cases h2
  | some j =>
    constructor
    · intro hh
      have hji : j = i := Option.some.inj hh
      subst hji
      have := (findIdx?_key_iff arr hnd k 0 j).1 (by rw [Nat.zero_add]; exact hfi)
      exact this
    · intro hh
      have h2 := (findIdx?_key_iff arr hnd k 0 i).2 hh
      rw [Nat.zero_add] at h2
      rw [hfi] at h2
      exact h2

theorem keyInv_congr {m : List (Int × Nat)} {arr arr' : List ObjectData}
    (hsame : ∀ i : Nat, Option.map ObjectData.key arr'[i]? = Option.map ObjectData.key arr[i]?)
    (h : keyInv m arr) : keyInv m arr' := by
  intro k i
  rw [hsame i]
  exact h k i

/-! Characterization of the modified-records loop (App.tsx:187-198 and
221-232): position i of the resulting array holds the last modified record
the index maps to i, and is untouched when no modified record maps there. -/

theorem modLoop_length (m : List (Int × Nat)) :
    ∀ (mods arr : List ObjectData) (sel : Option ObjectData),
      (modLoop m mods arr sel).1.length = arr.length := by
  intro mods
  induction mods with
  | nil => intro arr sel; rfl
  | cons nd rest ih =>
    intro arr sel
    cases h : alGet m nd.key with
    | some j => simp [modLoop, h, ih]
    | none => simp [modLoop, h, ih]

theorem modLoop_get (m : List (Int × Nat)) :
    ∀ (mods arr : List ObjectData) (sel : Option ObjectData) (i : Nat),
      (∀ k j, alGet m k = some j → j < arr.length) →
      ((modLoop m mods arr sel).1)[i]? =
        match (mods.filter (fun nd => alGet m nd.key == some i)).getLast? with
        | some nd => some nd
        | none => arr[i]? := by
  intro mods
  induction mods with
  | nil => intro arr sel i hb; rfl
  | cons nd rest ih =>
    intro arr sel i hb
    cases h : alGet m nd.key with
    | none =>
      have hp : (alGet m nd.key == some i) = false := by rw [h]; rfl
      rw [List.filter_cons]
      rw [hp]
      simp only [Bool.false_eq_true, if_false]
      simp only [modLoop, h]
      exact ih arr sel i hb
    | some j =>
      have hb' : ∀ k j', alGet m k = some j' → j' < (arr.set j nd).length := by
        intro k j' hk
        rw [List.length_set]
        exact hb k j' hk
      have hstep := ih (arr.set j nd) (match sel with
        | some s0 => if s0.key = nd.key then some nd else some s0
        | none => none) i hb'
      rw [List.filter_cons]
      by_cases hij : j = i
      · subst hij
        have hp : (alGet m nd.key == some j) = true := by rw [h]; exact beq_self_eq_true _
        rw [hp]
        simp only [if_true]
        simp only [modLoop, h]
        rw [hstep]
        cases hfl : (rest.filter (fun x => alGet m x.key == some j)).getLast? with
        | some y => rw [List.getLast?_cons, hfl]; rfl
        | none =>
          rw [List.getLast?_cons, hfl]
          simp only [Option.getD_none]
          have hjlen : j < arr.length := hb nd.key j h
          rw [List.getElem?_set, if_pos rfl, if_pos hjlen]
      · have hp : (alGet m nd.key == some i) = false := by
          rw [h]
          exact beq_eq_false_iff_ne.2 (fun hc => hij (Option.some.inj hc))
        rw [hp]
        simp only [Bool.false_eq_true, if_false]
        simp only [modLoop, h]
        rw [hstep]
        cases hfl : (rest.filter (fun x => alGet m x.key == some i)).getLast? with
        | some y => rfl
        | none => rw [List.getElem?_set_ne hij]

theorem modLoop_keys {m : List (Int × Nat)} {arr : List ObjectData}
    (h : keyInv m arr) (mods : List ObjectData) (sel : Option ObjectData) (i : Nat) :
    Option.map ObjectData.key ((modLoop m mods arr sel).1)[i]? =
      Option.map ObjectData.key arr[i]? := by
  have hb : ∀ k j, alGet m k = some j → j < arr.length :=
    fun k j hk => keyInv_bound h hk
  rw [modLoop_get m mods arr sel i hb]
  cases hfl : (mods.filter (fun nd => alGet m nd.key == some i)).getLast? with
  | none => rfl
  | some nd =>
    have hmem : nd ∈ mods.filter (fun x => alGet m x.key == some i) := by
      obtain ⟨ys, hys⟩ := List.getLast?_eq_some_iff.1 hfl
      rw [hys]
      simp
    have hpred := (List.mem_filter.1 hmem).2
    have hkey : alGet m nd.key = some i := by simpa using hpred
    have harr := (h nd.key i).1 hkey
    rw [harr]
    rfl

theorem modLoop_keyInv {m : List (Int × Nat)} {arr : List ObjectData}
    (h : keyInv m arr) (mods : List ObjectData) (sel : Option ObjectData) :
    keyInv m (modLoop m mods arr sel).1 :=
  keyInv_congr (fun i => modLoop_keys h mods sel i) h

/-! The temporary modified-data map binds every key to a record carrying
that key. -/

theorem alGet_foldl_alSet_key :
    ∀ (mods : List ObjectData) (acc : List (Int × ObjectData)),
      (∀ k nd, alGet acc k = some nd → nd.key = k) →
      ∀ k nd, alGet (mods.foldl (fun m x => alSet m x.key x) acc) k = some nd →
        nd.key = k := by
  intro mods
  induction mods with
  | nil => intro acc hacc; exact hacc
  | cons x rest ih =>
    intro acc hacc k nd hg
    rw [List.foldl_cons] at hg
    refine ih (alSet acc x.key x) ?_ k nd hg
    intro k' nd' hg'
    rw [alGet_alSet] at hg'
    by_cases hx : x.key = k'
    · rw [if_pos hx] at hg'
      exact Option.some.inj hg' ▸ hx
    · rw [if_neg hx] at hg'
      exact hacc k' nd' hg'

theorem buildModMap_key (mods : List ObjectData) :
    ∀ k nd, alGet (buildModMap mods) k = some nd → nd.key = k :=
  alGet_foldl_alSet_key mods [] (fun _ _ h => by simp [alGet] at h)

/-! Lemmas on the inserted-keys loop (App.tsx:199-207, 233-241). -/

theorem keyInv_append {m : List (Int × Nat)} {arr : List ObjectData}
    (h : keyInv m arr) {nd : ObjectData} (hnone : alGet m nd.key = none) :
    keyInv (alSet m nd.key arr.length) (arr ++ [nd]) := by
  intro k i
  rw [alGet_alSet]
  by_cases hk : nd.key = k
  · rw [if_pos hk]
    constructor
    · intro hh
      have hi : i = arr.length := (Option.some.inj hh).symm
      subst hi
      rw [List.getElem?_append_right (Nat.le_refl _), Nat.sub_self]
      simp [hk]
    · intro hh
      rcases Nat.lt_trichotomy i arr.length with hlt | heq | hgt
      · exfalso
        rw [List.getElem?_append, if_pos hlt] at hh
        have := (h k i).2 hh
        rw [← hk] at this
        rw [hnone] at this
        cases this
      · subst heq; rfl
      · exfalso
        rw [List.getElem?_append, if_neg (Nat.not_lt.2 (Nat.le_of_lt hgt))] at hh
        have hz : 1 ≤ i - arr.length := by omega
        rw [List.getElem?_eq_none (by simpa using hz)] at hh
        cases hh
  · rw [if_neg hk]
    constructor
    · intro hh
      have hlt := keyInv_bound h hh
      rw [List.getElem?_append, if_pos hlt]
      exact (h k i).1 hh
    · intro hh
      rcases Nat.lt_trichotomy i arr.length with hlt | heq | hgt
      · rw [List.getElem?_append, if_pos hlt] at hh
        exact (h k i).2 hh
      · exfalso
        subst heq
        rw [List.getElem?_append_right (Nat.le_refl _), Nat.sub_self] at hh
        have : nd.key = k := by simpa using hh
        exact hk this
      · exfalso
        rw [List.getElem?_append, if_neg (Nat.not_lt.2 (Nat.le_of_lt hgt))] at hh
        have hz : 1 ≤ i - arr.length := by omega
        rw [List.getElem?_eq_none (by simpa using hz)] at hh
        cases hh

theorem insLoop_keyInv (modMap : List (Int × ObjectData))
    (hok : ∀ k nd, alGet modMap k = some nd → nd.key = k) :
    ∀ (ks : List Int) (arr : List ObjectData) (m : List (Int × Nat)),
      keyInv m arr →
      keyInv (insLoop modMap ks arr m).2 (insLoop modMap ks arr m).1 := by
  intro ks
  induction ks with
  | nil => intro arr m h; exact h
  | cons k rest ih =>
    intro arr m h
    cases hmg : alGet modMap k with
    | none =>
      cases hg : alGet m k with
      | none => simp only [insLoop, hmg, hg]; exact ih arr m h
      | some j => simp only [insLoop, hmg, hg]; exact ih arr m h
    | some nd =>
      cases hg : alGet m k with
      | none =>
        simp only [insLoop, hmg, hg]
        apply ih
        have hkk := hok k nd hmg
        exact keyInv_append h (by rw [hkk]; exact hg)
      | some j => simp only [insLoop, hmg, hg]; exact ih arr m h

theorem insLoop_get_lt (modMap : List (Int × ObjectData)) :
    ∀ (ks : List Int) (arr : List ObjectData) (m : List (Int × Nat)) (i : Nat),
      i < arr.length → ((insLoop modMap ks arr m).1)[i]? = arr[i]? := by
  intro ks
  induction ks with
  | nil => intro arr m i hi; rfl
  | cons k rest ih =>
    intro arr m i hi
    cases hmg : alGet modMap k with
    | none =>
      cases hg : alGet m k with
      | none => simp only [insLoop, hmg, hg]; exact ih arr m i hi
      | some j => simp only [insLoop, hmg, hg]; exact ih arr m i hi
    | some nd =>
      cases hg : alGet m k with
      | none =>
        simp only [insLoop, hmg, hg]
        rw [ih (arr ++ [nd]) _ i (by rw [List.length_append]; omega)]
        rw [List.getElem?_append, if_pos hi]
      | some j => simp only [insLoop, hmg, hg]; exact ih arr m i hi

theorem insLoop_mono (modMap : List (Int × ObjectData))
    (hok : ∀ k nd, alGet modMap k = some nd → nd.key = k) :
    ∀ (ks : List Int) (arr : List ObjectData) (m : List (Int × Nat)) (k : Int) (i : Nat),
      alGet m k = some i → alGet (insLoop modMap ks arr m).2 k = some i := by
  intro ks
  induction ks with
  | nil => intro arr m k i hk; exact hk
  | cons k0 rest ih =>
    intro arr m k i hk
    cases hmg : alGet modMap k0 with
    | none =>
      cases hg : alGet m k0 with
      | none => simp only [insLoop, hmg, hg]; exact ih arr m k i hk
      | some j => simp only [insLoop, hmg, hg]; exact ih arr m k i hk
    | some nd =>
      cases hg : alGet m k0 with
      | none =>
        simp only [insLoop, hmg, hg]
        apply ih
        rw [alGet_alSet]
        have hkk := hok k0 nd hmg
        have hne : nd.key ≠ k := by
          rw [hkk]
          intro hc
          rw [hc] at hg
          rw [hg] at hk
          cases hk
        rw [if_neg hne]
        exact hk
      | some j => simp only [insLoop, hmg, hg]; exact ih arr m k i hk

theorem insLoop_covers (modMap : List (Int × ObjectData))
    (hok : ∀ k nd, alGet modMap k = some nd → nd.key = k) :
    ∀ (ks : List Int) (arr : List ObjectData) (m : List (Int × Nat)) (k : Int),
      k ∈ ks → (alGet modMap k).isSome →
      (alGet (insLoop modMap ks arr m).2 k).isSome := by
  intro ks
  induction ks with
  | nil => intro arr m k hmem; cases hmem
  | cons k0 rest ih =>
    intro arr m k hmem hsome
    cases hmg : alGet modMap k0 with
    | none =>
      cases List.mem_cons.1 hmem with
      | inl h0 =>
        exfalso
        rw [h0, hmg] at hsome
        cases hsome
      | inr h0 =>
        cases hg : alGet m k0 with
        | none => simp only [insLoop, hmg, hg]; exact ih arr m k h0 hsome
        | some j => simp only [insLoop, hmg, hg]; exact ih arr m k h0 hsome
    | some nd =>
      cases hg : alGet m k0 with
      | none =>
        simp only [insLoop, hmg, hg]
        cases List.mem_cons.1 hmem with
        | inl h0 =>
          subst h0
          have hget : alGet (alSet m nd.key arr.length) k = some arr.length := by
            rw [alGet_alSet, if_pos (hok k nd hmg)]
          rw [insLoop_mono modMap hok rest _ _ k arr.length hget]
          rfl
        | inr h0 => exact ih _ _ k h0 hsome
      | some j =>
        simp only [insLoop, hmg, hg]
        cases List.mem_cons.1 hmem with
        | inl h0 =>
          subst h0
          rw [insLoop_mono modMap hok rest _ _ k j hg]
          rfl
        | inr h0 => exact ih arr m k h0 hsome

theorem insLoop_noop (modMap : List (Int × ObjectData)) :
    ∀ (ks : List Int) (arr : List ObjectData) (m : List (Int × Nat)),
      (∀ k ∈ ks, alGet modMap k = none ∨ (alGet m k).isSome) →
      insLoop modMap ks arr m = (arr, m) := by
  intro ks
  induction ks with
  | nil => intro arr m hh; rfl
  | cons k0 rest ih =>
    intro arr m hh
    have h0 := hh k0 (List.mem_cons_self k0 rest)
    have hrest : ∀ k ∈ rest, alGet modMap k = none ∨ (alGet m k).isSome :=
      fun k hk => hh k (List.mem_cons_of_mem k0 hk)
    cases h0 with
    | inl hz =>
      cases hg : alGet m k0 with
      | none => simp only [insLoop, hz, hg]; exact ih arr m hrest
      | some j => simp only [insLoop, hz, hg]; exact ih arr m hrest
    | inr hz =>
      cases hg : alGet m k0 with
      | none => rw [hg] at hz; cases hz
      | some j =>
        cases hmg : alGet modMap k0 with
        | none => simp only [insLoop, hmg, hg]; exact ih arr m hrest
        | some nd => simp only [insLoop, hmg, hg]; exact ih arr m hrest

/-! The removal step (App.tsx:209-218, 243-252) re-establishes the
invariant by rebuilding the index from the filtered array. -/

theorem applyRemovals_keyInv {m : List (Int × Nat)} {arr : List ObjectData}
    (h : keyInv m arr) (rem : Option (List Int)) :
    keyInv (applyRemovals rem arr m).2 (applyRemovals rem arr m).1 := by
  cases rem with
  | none => exact h
  | some rks =>
    show keyInv (refreshIndex (arr.filter fun nd => !(rks.contains nd.key)))
      (arr.filter fun nd => !(rks.contains nd.key))
    apply keyInv_refresh
    have hnd := keyInv_nodup h
    have hsub : ((arr.filter fun nd => !(rks.contains nd.key)).map ObjectData.key).Sublist
        (arr.map ObjectData.key) :=
      List.Sublist.map ObjectData.key (List.filter_sublist arr)
    exact List.Nodup.sublist hsub hnd

theorem handleModelChange_keyInv {s : AppState}
    (hN : keyInv s.mapNodeKeyIdx s.nodeDataArray)
    (hL : keyInv s.mapLinkKeyIdx s.linkDataArray) (obj : IncrementalData) :
    keyInv (handleModelChange s obj).mapNodeKeyIdx
      (handleModelChange s obj).nodeDataArray ∧
    keyInv (handleModelChange s obj).mapLinkKeyIdx
      (handleModelChange s obj).linkDataArray := by
  constructor
  · have h1 := modLoop_keyInv hN (obj.modifiedNodeData.getD []) s.selectedData
    have h2 := insLoop_keyInv (buildModMap (obj.modifiedNodeData.getD []))
      (buildModMap_key _) (obj.insertedNodeKeys.getD [])
      (modLoop s.mapNodeKeyIdx (obj.modifiedNodeData.getD [])
        s.nodeDataArray s.selectedData).1 s.mapNodeKeyIdx h1
    exact applyRemovals_keyInv h2 obj.removedNodeKeys
  · have h1 := modLoop_keyInv hL (obj.modifiedLinkData.getD [])
      (modLoop s.mapNodeKeyIdx (obj.modifiedNodeData.getD [])
        s.nodeDataArray s.selectedData).2
    have h2 := insLoop_keyInv (buildModMap (obj.modifiedLinkData.getD []))
      (buildModMap_key _) (obj.insertedLinkKeys.getD [])
      (modLoop s.mapLinkKeyIdx (obj.modifiedLinkData.getD [])
        s.linkDataArray (modLoop s.mapNodeKeyIdx (obj.modifiedNodeData.getD [])
          s.nodeDataArray s.selectedData).2).1 s.mapLinkKeyIdx h1
    exact applyRemovals_keyInv h2 obj.removedLinkKeys

/-- C1: for every sequence of incremental change descriptors applied via
the synchronizer's applyIncrementalChange (handleModelChange), after each
call (every prefix of the sequence is itself such a sequence) the key index
and the canonical array of each collection satisfy: the index maps key k to
position i exactly when the record at position i of the array has key k. -/
theorem c1_index_array_consistency (s : AppState)
    (hN : keyInv s.mapNodeKeyIdx s.nodeDataArray)
    (hL : keyInv s.mapLinkKeyIdx s.linkDataArray)
    (changes : List IncrementalData) :
    keyInv (applySeq s changes).mapNodeKeyIdx (applySeq s changes).nodeDataArray ∧
    keyInv (applySeq s changes).mapLinkKeyIdx (applySeq s changes).linkDataArray := by
  induction changes generalizing s with
  | nil => exact ⟨hN, hL⟩
  | cons c rest ih =>
    have hstep := handleModelChange_keyInv hN hL c
    exact ih (handleModelChange s c) hstep.1 hstep.2

/-- A concrete mixed descriptor: inserts node 4 (with its data in the
modified list), modifies node 0, removes node 1 and link -1. -/
def sampleChange : IncrementalData :=
  { emptyChange with
    insertedNodeKeys := some [4]
    modifiedNodeData := some
      [ { key := 4, attrs := [("text", "New")] }
      , { key := 0, attrs := [("text", "Alpha2")] } ]
    removedNodeKeys := some [1]
    removedLinkKeys := some [-1] }

/-- Witness for c1_index_array_consistency: the invariant hypotheses hold at
the freshly mounted initial state, and the theorem yields consistency after
a concrete mixed descriptor. -/
theorem c1_witness :
    keyInv initialAppState.mapNodeKeyIdx initialAppState.nodeDataArray ∧
    keyInv initialAppState.mapLinkKeyIdx initialAppState.linkDataArray ∧
    (keyInv (applySeq initialAppState [sampleChange]).mapNodeKeyIdx
       (applySeq initialAppState [sampleChange]).nodeDataArray ∧
     keyInv (applySeq initialAppState [sampleChange]).mapLinkKeyIdx
       (applySeq initialAppState [sampleChange]).linkDataArray) := by
  have hN : keyInv initialAppState.mapNodeKeyIdx initialAppState.nodeDataArray :=
    keyInv_refresh initNodes (by decide)
  have hL : keyInv initialAppState.mapLinkKeyIdx initialAppState.linkDataArray :=
    keyInv_refresh initLinks (by decide)
  exact ⟨hN, hL, c1_index_array_consistency initialAppState hN hL [sampleChange]⟩

/-! Two invariant-respecting maps over the same array answer every lookup
identically. -/

theorem keyInv_unique {m m' : List (Int × Nat)} {arr : List ObjectData}
    (h : keyInv m arr) (h' : keyInv m' arr) (k : Int) :
    alGet m k = alGet m' k := by
  cases hg : alGet m k with
  | some i =>
    have := (h' k i).2 ((h k i).1 hg)
    rw [this]
  | none =>
    cases hg' : alGet m' k with
    | none => rfl
    | some i =>
      have := (h k i).2 ((h' k i).1 hg')
      rw [this] at hg
      cases hg

/-! Characterization of handleInputChange (App.tsx:268-291) on the four
paths: live edit, committed node edit, committed link edit, and commit with
a key indexed in neither map. -/

theorem setField_key (d : ObjectData) (p v : String) : (setField d p v).key = d.key :=
  rfl

theorem handleInputChange_nonblur (s : AppState) (s0 : ObjectData) (p v : String)
    (hsel : s.selectedData = some s0) :
    handleInputChange s p v false = { s with selectedData := some (setField s0 p v) } := by
  simp only [handleInputChange, hsel]
  simp

theorem handleInputChange_commit_node (s : AppState) (s0 : ObjectData)
    (p v : String) (i : Nat) (hsel : s.selectedData = some s0)
    (hkey : ¬ s0.key < 0) (hidx : alGet s.mapNodeKeyIdx s0.key = some i) :
    handleInputChange s p v true =
      { s with selectedData := some (setField s0 p v)
               nodeDataArray := s.nodeDataArray.set i (setField s0 p v)
               skipsDiagramUpdate := false } := by
  have hk2 : ¬ (setField s0 p v).key < 0 := hkey
  have hidx2 : alGet s.mapNodeKeyIdx (setField s0 p v).key = some i := hidx
  simp only [handleInputChange, hsel]
  rw [if_neg hk2, hidx2]
  simp

theorem handleInputChange_commit_link (s : AppState) (s0 : ObjectData)
    (p v : String) (j : Nat) (hsel : s.selectedData = some s0)
    (hkey : s0.key < 0) (hidx : alGet s.mapLinkKeyIdx s0.key = some j) :
    handleInputChange s p v true =
      { s with selectedData := some (setField s0 p v)
               linkDataArray := s.linkDataArray.set j (setField s0 p v)
               skipsDiagramUpdate := false } := by
  have hk2 : (setField s0 p v).key < 0 := hkey
  have hidx2 : alGet s.mapLinkKeyIdx (setField s0 p v).key = some j := hidx
  simp only [handleInputChange, hsel]
  rw [if_pos hk2, hidx2]
  simp

/-- C3 (amended): when a commit (isBlur) references a selected key absent
from both indexes, handleInputChange silently skips the array write: the
result is the input state with only the in-memory selected record mutated;
arrays and skip flag are untouched and no fault of any kind is raised (the
function is total and has no error channel). -/
theorem c3_amended_commit_missing_key (s : AppState) (s0 : ObjectData)
    (p v : String) (hsel : s.selectedData = some s0)
    (hN : alGet s.mapNodeKeyIdx s0.key = none)
    (hL : alGet s.mapLinkKeyIdx s0.key = none) :
    handleInputChange s p v true = { s with selectedData := some (setField s0 p v) } := by
  have hN2 : alGet s.mapNodeKeyIdx (setField s0 p v).key = none := hN
  have hL2 : alGet s.mapLinkKeyIdx (setField s0 p v).key = none := hL
  simp only [handleInputChange, hsel]
  by_cases hk : (setField s0 p v).key < 0
  · rw [if_pos hk, hL2]
    simp
  · rw [if_neg hk, hN2]
    simp

/-- A desynchronized state: a record is selected whose key 7 appears in
neither index (both collections are empty). -/
def inconsistentState : AppState :=
  { nodeDataArray := []
    linkDataArray := []
    modelData := [("canRelink", true)]
    selectedData := some { key := 7, attrs := [("text", "x")] }
    skipsDiagramUpdate := true
    mapNodeKeyIdx := []
    mapLinkKeyIdx := [] }

/-- C3 counterexample: committing an edit while the selected key 7 is
absent from both indexes raises nothing and drops the commit silently -
the call returns normally with arrays and skip flag unchanged and only the
in-memory selected record mutated, refuting "signals an inconsistent-state
fault (the error is surfaced, not swallowed)". -/
theorem c3_counterexample :
    handleInputChange inconsistentState "text" "y" true =
      { inconsistentState with selectedData := some { key := 7, attrs := [("text", "y")] } } ∧
    (handleInputChange inconsistentState "text" "y" true).nodeDataArray =
      inconsistentState.nodeDataArray ∧
    (handleInputChange inconsistentState "text" "y" true).linkDataArray =
      inconsistentState.linkDataArray ∧
    (handleInputChange inconsistentState "text" "y" true).skipsDiagramUpdate =
      inconsistentState.skipsDiagramUpdate := by
  refine ⟨?_, ?_, ?_, ?_⟩ <;> decide

/-- Witness for c3_amended_commit_missing_key at the concrete
desynchronized state. -/
theorem c3_witness :
    inconsistentState.selectedData = some { key := 7, attrs := [("text", "x")] } ∧
    handleInputChange inconsistentState "note" "z" true =
      { inconsistentState with
          selectedData := some (setField { key := 7, attrs := [("text", "x")] } "note" "z") } :=
  ⟨by decide,
    c3_amended_commit_missing_key inconsistentState
      { key := 7, attrs := [("text", "x")] } "note" "z" (by decide) (by decide) (by decide)⟩

/-- The initial Alpha node record (App.tsx:35). -/
def nodeRec : ObjectData :=
  { key := 0, attrs := [("text", "Alpha"), ("color", "lightblue"), ("loc", "0 0")] }

/-- The initial -1 link record (App.tsx:41). -/
def linkRec : ObjectData :=
  { key := -1, attrs := [("from", "0"), ("to", "1")] }

/-- The initial Beta node record (App.tsx:36). -/
def betaRec : ObjectData :=
  { key := 1, attrs := [("text", "Beta"), ("color", "orange"), ("loc", "150 0")] }

/-- Initial state with the Alpha node selected. -/
def nodeSelState : AppState := { initialAppState with selectedData := some nodeRec }

/-- Initial state with the -1 link selected. -/
def linkSelState : AppState := { initialAppState with selectedData := some linkRec }

/-- C4: for a selected record whose key is indexed, editSelectedField
(handleInputChange) with commit=false mutates the selected record but
leaves both canonical arrays untouched; with commit=true the owning array's
entry at the indexed position (node array for a non-negative key, link
array for a negative key) equals the mutated record. -/
theorem c4_edit_selected_field
    (s : AppState) (s0 : ObjectData) (p v : String) (i : Nat)
    (t : AppState) (t0 : ObjectData) (q w : String) (j : Nat)
    (hsel : s.selectedData = some s0) (hkey : ¬ s0.key < 0)
    (hidx : alGet s.mapNodeKeyIdx s0.key = some i)
    (hlen : i < s.nodeDataArray.length)
    (htsel : t.selectedData = some t0) (htkey : t0.key < 0)
    (htidx : alGet t.mapLinkKeyIdx t0.key = some j)
    (htlen : j < t.linkDataArray.length) :
    ((handleInputChange s p v false).selectedData = some (setField s0 p v) ∧
     (handleInputChange s p v false).nodeDataArray = s.nodeDataArray ∧
     (handleInputChange s p v false).linkDataArray = s.linkDataArray) ∧
    ((handleInputChange s p v true).nodeDataArray)[i]? = some (setField s0 p v) ∧
    ((handleInputChange t q w true).linkDataArray)[j]? = some (setField t0 q w) := by
  refine ⟨?_, ?_, ?_⟩
  · rw [handleInputChange_nonblur s s0 p v hsel]
    exact ⟨rfl, rfl, rfl⟩
  · rw [handleInputChange_commit_node s s0 p v i hsel hkey hidx]
    show (s.nodeDataArray.set i (setField s0 p v))[i]? = some (setField s0 p v)
    rw [List.getElem?_set, if_pos rfl, if_pos hlen]
  · rw [handleInputChange_commit_link t t0 q w j htsel htkey htidx]
    show (t.linkDataArray.set j (setField t0 q w))[j]? = some (setField t0 q w)
    rw [List.getElem?_set, if_pos rfl, if_pos htlen]

/-- Witness for c4_edit_selected_field: the selected node key 0 sits at
position 0 and the selected link key -1 at position 0, and the edits land
as the theorem states. -/
theorem c4_witness :
    nodeSelState.selectedData = some nodeRec ∧
    linkSelState.selectedData = some linkRec ∧
    (((handleInputChange nodeSelState "text" "Hello" false).selectedData =
        some (setField nodeRec "text" "Hello") ∧
      (handleInputChange nodeSelState "text" "Hello" false).nodeDataArray =
        nodeSelState.nodeDataArray ∧
      (handleInputChange nodeSelState "text" "Hello" false).linkDataArray =
        nodeSelState.linkDataArray) ∧
     ((handleInputChange nodeSelState "text" "Hello" true).nodeDataArray)[0]? =
       some (setField nodeRec "text" "Hello") ∧
     ((handleInputChange linkSelState "color" "red" true).linkDataArray)[0]? =
       some (setField linkRec "color" "red")) :=
  ⟨by decide, by decide,
    c4_edit_selected_field nodeSelState nodeRec "text" "Hello" 0
      linkSelState linkRec "color" "red" 0
      (by decide) (by decide) (by decide) (by decide)
      (by decide) (by decide) (by decide) (by decide)⟩

/-- C8: the skip flag is set to true by every handleModelChange call
regardless of the descriptor, and reset to false by a committed inspector
edit whose key is indexed (node or link case) and by the local metadata
toggle handleRelinkChange. -/
theorem c8_skip_flag (s : AppState) (c : IncrementalData)
    (t : AppState) (t0 : ObjectData) (p v : String) (i : Nat)
    (u : AppState) (u0 : ObjectData) (q w : String) (j : Nat)
    (r : AppState) (b : Bool)
    (hts : t.selectedData = some t0) (htk : ¬ t0.key < 0)
    (hti : alGet t.mapNodeKeyIdx t0.key = some i)
    (hus : u.selectedData = some u0) (huk : u0.key < 0)
    (hui : alGet u.mapLinkKeyIdx u0.key = some j) :
    (handleModelChange s c).skipsDiagramUpdate = true ∧
    (handleInputChange t p v true).skipsDiagramUpdate = false ∧
    (handleInputChange u q w true).skipsDiagramUpdate = false ∧
    (handleRelinkChange r b).skipsDiagramUpdate = false := by
  refine ⟨rfl, ?_, ?_, rfl⟩
  · rw [handleInputChange_commit_node t t0 p v i hts htk hti]
  · rw [handleInputChange_commit_link u u0 q w j hus huk hui]

/-- Witness for c8_skip_flag at concrete states covering all four parts. -/
theorem c8_witness :
    (handleModelChange initialAppState sampleChange).skipsDiagramUpdate = true ∧
    (handleInputChange nodeSelState "text" "T" true).skipsDiagramUpdate = false ∧
    (handleInputChange linkSelState "text" "U" true).skipsDiagramUpdate = false ∧
    (handleRelinkChange initialAppState false).skipsDiagramUpdate = false :=
  c8_skip_flag initialAppState sampleChange nodeSelState nodeRec "text" "T" 0
    linkSelState linkRec "text" "U" 0 initialAppState false
    (by decide) (by decide) (by decide) (by decide) (by decide) (by decide)

/-- C9: a metadata-carrying descriptor replaces the metadata mapping with
exactly the supplied mapping (no keys retained from the prior mapping), and
the local relink toggle replaces it with exactly the single-field mapping. -/
theorem c9_metadata_wholesale (s : AppState) (c : IncrementalData)
    (md : List (String × Bool)) (u : AppState) (b : Bool)
    (hmd : c.modelData = some md) :
    (handleModelChange s c).modelData = md ∧
    (handleRelinkChange u b).modelData = [("canRelink", b)] := by
  constructor
  · show c.modelData.getD s.modelData = md
    rw [hmd]
    rfl
  · rfl

/-- A descriptor carrying only a metadata update. -/
def metadataChange : IncrementalData :=
  { emptyChange with modelData := some [("canRelink", false)] }

/-- Witness for c9_metadata_wholesale: the initial mapping is replaced by
the supplied one-key mapping exactly. -/
theorem c9_witness :
    (handleModelChange initialAppState metadataChange).modelData = [("canRelink", false)] ∧
    (handleRelinkChange initialAppState false).modelData = [("canRelink", false)] :=
  c9_metadata_wholesale initialAppState metadataChange [("canRelink", false)]
    initialAppState false rfl

/-- Initial state with the Beta node (key 1) selected. -/
def selRemovedState : AppState := { initialAppState with selectedData := some betaRec }

/-- A descriptor removing node key 1 and nothing else. -/
def removeBetaChange : IncrementalData :=
  { emptyChange with removedNodeKeys := some [1] }

/-- C6 counterexample: with the Beta record (key 1) selected, applying a
descriptor whose removal set contains key 1 removes the record from the
canonical array but leaves the selection pointing at the removed record -
it does not transition to no-selection, refuting the claim. -/
theorem c6_counterexample :
    (handleModelChange selRemovedState removeBetaChange).selectedData = some betaRec ∧
    (handleModelChange selRemovedState removeBetaChange).selectedData ≠ none ∧
    (∀ nd ∈ (handleModelChange selRemovedState removeBetaChange).nodeDataArray,
      nd.key ≠ 1) := by
  refine ⟨?_, ?_, ?_⟩ <;> decide

/-- C6 (amended): handleModelChange only ever touches the selection from
its modified-records loops, so a descriptor with no modified records - in
particular a pure removal descriptor, even one removing the selected key -
leaves selectedData unchanged (a stale reference persists); the transition
to no-selection happens only through the external cleared-selection event,
handleDiagramEvent with an empty subject. -/
theorem c6_amended_removal_keeps_selection (s : AppState) (c : IncrementalData)
    (t : AppState) (hmn : c.modifiedNodeData = none) (hml : c.modifiedLinkData = none) :
    (handleModelChange s c).selectedData = s.selectedData ∧
    (handleDiagramEvent t none).selectedData = none := by
  constructor
  · simp [handleModelChange, hmn, hml, modLoop]
  · rfl

/-- Witness for c6_amended_removal_keeps_selection: the pure removal of the
selected key leaves the stale selection in place, and an empty
ChangedSelection clears it. -/
theorem c6_witness :
    (handleModelChange selRemovedState removeBetaChange).selectedData =
      selRemovedState.selectedData ∧
    (handleDiagramEvent initialAppState none).selectedData = none :=
  c6_amended_removal_keeps_selection selRemovedState removeBetaChange initialAppState
    rfl rfl

/-- A descriptor carrying only a node-removal set. -/
def removalOnly (rks : List Int) : IncrementalData :=
  { emptyChange with removedNodeKeys := some rks }

/-- C7: a removal descriptor filters out every record whose key is in the
removal set and rebuilds the node index from the filtered array (so the
surviving positions are scan order and the invariant holds); any removed
key disappears from both the array and the index; and a removal set whose
keys match no record leaves the array and every index mapping unchanged. -/
theorem c7_removal (s : AppState) (rks : List Int) (k : Int)
    (t : AppState) (rks2 : List Int)
    (hN : keyInv s.mapNodeKeyIdx s.nodeDataArray)
    (hk : k ∈ rks)
    (htN : keyInv t.mapNodeKeyIdx t.nodeDataArray)
    (habsent : ∀ k2 ∈ rks2, ∀ nd ∈ t.nodeDataArray, nd.key ≠ k2) :
    (handleModelChange s (removalOnly rks)).nodeDataArray =
      s.nodeDataArray.filter (fun nd => !(rks.contains nd.key)) ∧
    (handleModelChange s (removalOnly rks)).mapNodeKeyIdx =
      refreshIndex (s.nodeDataArray.filter (fun nd => !(rks.contains nd.key))) ∧
    alGet (handleModelChange s (removalOnly rks)).mapNodeKeyIdx k = none ∧
    (∀ i : Nat, Option.map ObjectData.key
      ((handleModelChange s (removalOnly rks)).nodeDataArray)[i]? ≠ some k) ∧
    keyInv (handleModelChange s (removalOnly rks)).mapNodeKeyIdx
      (handleModelChange s (removalOnly rks)).nodeDataArray ∧
    (handleModelChange t (removalOnly rks2)).nodeDataArray = t.nodeDataArray ∧
    (∀ k2 : Int, alGet (handleModelChange t (removalOnly rks2)).mapNodeKeyIdx k2 =
      alGet t.mapNodeKeyIdx k2) := by
  have hfnd : ((s.nodeDataArray.filter fun nd => !(rks.contains nd.key)).map
      ObjectData.key).Nodup :=
    List.Nodup.sublist (List.Sublist.map ObjectData.key (List.filter_sublist _))
      (keyInv_nodup hN)
  have hInvF := keyInv_refresh _ hfnd
  have hnotk : ∀ i : Nat, Option.map ObjectData.key
      ((s.nodeDataArray.filter fun nd => !(rks.contains nd.key)))[i]? ≠ some k := by
    intro i hh
    cases hg : (s.nodeDataArray.filter fun nd => !(rks.contains nd.key))[i]? with
    | none => rw [hg] at hh; cases hh
    | some d =>
      rw [hg] at hh
      have hdk : d.key = k := by simpa using hh
      have hdmem : d ∈ s.nodeDataArray.filter fun nd => !(rks.contains nd.key) := by
        obtain ⟨hlt, heq⟩ := List.getElem?_eq_some_iff.1 hg
        exact heq ▸ List.getElem_mem hlt
      have hpred := (List.mem_filter.1 hdmem).2
      rw [hdk] at hpred
      have : ¬ rks.contains k = true := by simpa using hpred
      exact this (List.elem_iff.2 hk)
  have heq2 : t.nodeDataArray.filter (fun nd => !(rks2.contains nd.key)) =
      t.nodeDataArray := by
    rw [List.filter_eq_self]
    intro nd hnd
    have : ¬ nd.key ∈ rks2 := fun hmem => habsent nd.key hmem nd hnd rfl
    simp [List.elem_iff, this]
  refine ⟨rfl, rfl, ?_, hnotk, hInvF, heq2, ?_⟩
  · cases hg : alGet (refreshIndex
        (s.nodeDataArray.filter fun nd => !(rks.contains nd.key))) k with
    | none => exact hg
    | some i =>
      exfalso
      exact hnotk i ((hInvF k i).1 hg)
  · intro k2
    show alGet (refreshIndex (t.nodeDataArray.filter fun nd => !(rks2.contains nd.key))) k2 =
      alGet t.mapNodeKeyIdx k2
    rw [heq2]
    exact keyInv_unique (keyInv_refresh t.nodeDataArray (keyInv_nodup htN)) htN k2

/-- Witness for c7_removal: removing keys {1, 99} from the initial state
drops key 1 from index and array, and removing only the absent key 99
changes nothing. -/
theorem c7_witness :
    (1 : Int) ∈ [(1 : Int), 99] ∧
    alGet (handleModelChange initialAppState (removalOnly [1, 99])).mapNodeKeyIdx 1 = none ∧
    (handleModelChange initialAppState (removalOnly [99])).nodeDataArray =
      initialAppState.nodeDataArray := by
  have hN : keyInv initialAppState.mapNodeKeyIdx initialAppState.nodeDataArray :=
    keyInv_refresh initNodes (by decide)
  have h := c7_removal initialAppState [1, 99] 1 initialAppState [99]
    hN (by decide) hN (by decide)
  exact ⟨by decide, h.2.2.1, h.2.2.2.2.2.1⟩

/-! Termination bound for the key-minting scans: each step past an existing
key strictly shrinks the set of existing keys at or beyond the cursor, so
fuel `used.length + 1` always reaches a free key. -/

theorem length_filter_mono {α : Type} (p q : α → Bool)
    (h : ∀ x, p x = true → q x = true) :
    ∀ l : List α, (l.filter p).length ≤ (l.filter q).length := by
  intro l
  induction l with
  | nil => exact Nat.le_refl 0
  | cons a l ih =>
    rw [List.filter_cons, List.filter_cons]
    by_cases hp : p a
    · rw [if_pos hp, if_pos (h a hp)]
      simpa using ih
    · rw [if_neg hp]
      by_cases hq : q a
      · rw [if_pos hq]
        exact Nat.le_succ_of_le ih
      · rw [if_neg hq]
        exact ih

theorem length_filter_lt_up {l : List Int} {k : Int} (h : k ∈ l) :
    (l.filter fun x => decide (k + 1 ≤ x)).length <
      (l.filter fun x => decide (k ≤ x)).length := by
  induction l with
  | nil => cases h
  | cons a l ih =>
    rw [List.filter_cons, List.filter_cons]
    by_cases hak : a = k
    · subst hak
      rw [if_neg (by simp), if_pos (by simp)]
      have hmono := length_filter_mono (fun x => decide (a + 1 ≤ x))
        (fun x => decide (a ≤ x)) (fun x hx => by
          simp only [decide_eq_true_eq] at hx ⊢
          omega) l
      simpa using Nat.lt_succ_of_le hmono
    · have hmem : k ∈ l := by
        cases List.mem_cons.1 h with
        | inl hq => exact absurd hq.symm hak
        | inr hq => exact hq
      have ihm := ih hmem
      by_cases h1 : k + 1 ≤ a
      · rw [if_pos (by simp; omega), if_pos (by simp; omega)]
        simpa using Nat.succ_lt_succ ihm
      · rw [if_neg (by simp; omega)]
        by_cases h0 : k ≤ a
        · rw [if_pos (by simp; omega)]
          exact Nat.lt_succ_of_lt ihm
        · rw [if_neg (by simp; omega)]
          exact ihm

theorem length_filter_lt_down {l : List Int} {k : Int} (h : k ∈ l) :
    (l.filter fun x => decide (x ≤ k - 1)).length <
      (l.filter fun x => decide (x ≤ k)).length := by
  induction l with
  | nil => cases h
  | cons a l ih =>
    rw [List.filter_cons, List.filter_cons]
    by_cases hak : a = k
    · subst hak
      rw [if_neg (by simp), if_pos (by simp)]
      have hmono := length_filter_mono (fun x => decide (x ≤ a - 1))
        (fun x => decide (x ≤ a)) (fun x hx => by
          simp only [decide_eq_true_eq] at hx ⊢
          omega) l
      simpa using Nat.lt_succ_of_le hmono
    · have hmem : k ∈ l := by
        cases List.mem_cons.1 h with
        | inl hq => exact absurd hq.symm hak
        | inr hq => exact hq
      have ihm := ih hmem
      by_cases h1 : a ≤ k - 1
      · rw [if_pos (by simp; omega), if_pos (by simp; omega)]
        simpa using Nat.succ_lt_succ ihm
      · rw [if_neg (by simp; omega)]
        by_cases h0 : a ≤ k
        · rw [if_pos (by simp; omega)]
          exact Nat.lt_succ_of_lt ihm
        · rw [if_neg (by simp; omega)]
          exact ihm

theorem findFreeUp_not_mem (used : List Int) :
    ∀ (fuel : Nat) (k : Int),
      (used.filter fun x => decide (k ≤ x)).length < fuel →
      findFreeUp used fuel k ∉ used := by
  intro fuel
  induction fuel with
  | zero => intro k h; exact absurd h (Nat.not_lt_zero _)
  | succ f ih =>
    intro k h
    rw [findFreeUp]
    by_cases hc : used.contains k
    · rw [if_pos hc]
      apply ih
      have := length_filter_lt_up (List.elem_iff.1 hc)
      omega
    · rw [if_neg hc]
      intro hmem
      exact hc (List.elem_iff.2 hmem)

theorem findFreeDown_not_mem (used : List Int) :
    ∀ (fuel : Nat) (k : Int),
      (used.filter fun x => decide (x ≤ k)).length < fuel →
      findFreeDown used fuel k ∉ used := by
  intro fuel
  induction fuel with
  | zero => intro k h; exact absurd h (Nat.not_lt_zero _)
  | succ f ih =>
    intro k h
    rw [findFreeDown]
    by_cases hc : used.contains k
    · rw [if_pos hc]
      apply ih
      have := length_filter_lt_down (List.elem_iff.1 hc)
      omega
    · rw [if_neg hc]
      intro hmem
      exact hc (List.elem_iff.2 hmem)

theorem findFreeUp_ge (used : List Int) :
    ∀ (fuel : Nat) (k : Int), k ≤ findFreeUp used fuel k := by
  intro fuel
  induction fuel with
  | zero => intro k; exact Int.le_refl k
  | succ f ih =>
    intro k
    rw [findFreeUp]
    by_cases hc : used.contains k
    · rw [if_pos hc]
      exact Int.le_trans (by omega) (ih (k + 1))
    · rw [if_neg hc]

theorem findFreeDown_le (used : List Int) :
    ∀ (fuel : Nat) (k : Int), findFreeDown used fuel k ≤ k := by
  intro fuel
  induction fuel with
  | zero => intro k; exact Int.le_refl k
  | succ f ih =>
    intro k
    rw [findFreeDown]
    by_cases hc : used.contains k
    · rw [if_pos hc]
      exact Int.le_trans (ih (k - 1)) (by omega)
    · rw [if_neg hc]

/-- C10 counterexample: with existing node keys {5} and no supplied key,
makeUniqueKeyFunction mints 1, which is below the existing maximum 5; the
spec's rule "increment from the existing maximum until unused"
(specMintNodeKey) yields 6 instead, so the two disagree. -/
theorem c10_counterexample :
    makeUniqueKeyFunction [5] none = 1 ∧
    specMintNodeKey [5] = 6 ∧
    makeUniqueKeyFunction [5] none ≠ specMintNodeKey [5] := by
  refine ⟨?_, ?_, ?_⟩ <;> decide

/-- C10 (amended): makeUniqueKeyFunction / makeUniqueLinkKeyFunction start
from the supplied key when present and nonzero - not from the existing
maximum - or else from 1 (nodes) / -1 (links), and scan upward (nodes) /
downward (links) until an unused value is found.  The minted key is always
unused (unique); with no supplied key the node key is at least 1 (hence
non-negative) and the link key at most -1 (hence non-positive). -/
theorem c10_amended_key_minting (used usedL : List Int) (dk : Int) :
    makeUniqueKeyFunction used none ∉ used ∧
    1 ≤ makeUniqueKeyFunction used none ∧
    makeUniqueLinkKeyFunction usedL none ∉ usedL ∧
    makeUniqueLinkKeyFunction usedL none ≤ -1 ∧
    makeUniqueKeyFunction used (some dk) ∉ used ∧
    makeUniqueLinkKeyFunction usedL (some dk) ∉ usedL := by
  have hboundUp : ∀ k : Int,
      (used.filter fun x => decide (k ≤ x)).length < used.length + 1 :=
    fun k => Nat.lt_succ_of_le (List.length_filter_le _ used)
  have hboundDown : ∀ k : Int,
      (usedL.filter fun x => decide (x ≤ k)).length < usedL.length + 1 :=
    fun k => Nat.lt_succ_of_le (List.length_filter_le _ usedL)
  refine ⟨?_, ?_, ?_, ?_, ?_, ?_⟩
  · exact findFreeUp_not_mem used (used.length + 1) 1 (hboundUp 1)
  · exact findFreeUp_ge used (used.length + 1) 1
  · exact findFreeDown_not_mem usedL (usedL.length + 1) (-1) (hboundDown (-1))
  · exact findFreeDown_le usedL (usedL.length + 1) (-1)
  · show findFreeUp used (used.length + 1) (if dk = 0 then 1 else dk) ∉ used
    exact findFreeUp_not_mem used (used.length + 1) _ (hboundUp _)
  · show findFreeDown usedL (usedL.length + 1) (if dk = 0 then -1 else dk) ∉ usedL
    exact findFreeDown_not_mem usedL (usedL.length + 1) _ (hboundDown _)

/-! How the modified-records loop moves the selection (App.tsx:193-195,
227-229). -/

theorem modLoop_sel_none (m : List (Int × Nat)) :
    ∀ (mods arr : List ObjectData), (modLoop m mods arr none).2 = none := by
  intro mods
  induction mods with
  | nil => intro arr; rfl
  | cons x rest ih =>
    intro arr
    cases h : alGet m x.key with
    | some idx => simp only [modLoop, h]; exact ih (arr.set idx x)
    | none => simp only [modLoop, h]; exact ih arr

theorem modLoop_sel_frame (m : List (Int × Nat)) :
    ∀ (mods arr : List ObjectData) (cur : ObjectData),
      (∀ x ∈ mods, x.key ≠ cur.key) →
      (modLoop m mods arr (some cur)).2 = some cur := by
  intro mods
  induction mods with
  | nil => intro arr cur hfr; rfl
  | cons x rest ih =>
    intro arr cur hfr
    have hx : x.key ≠ cur.key := hfr x (List.mem_cons_self x rest)
    have hrest : ∀ y ∈ rest, y.key ≠ cur.key :=
      fun y hy => hfr y (List.mem_cons_of_mem x hy)
    cases h : alGet m x.key with
    | some idx =>
      simp only [modLoop, h]
      rw [if_neg (fun hc => hx hc.symm)]
      exact ih (arr.set idx x) cur hrest
    | none =>
      simp only [modLoop, h]
      exact ih arr cur hrest

theorem modLoop_sel_update (m : List (Int × Nat)) (K : Int) (j : Nat)
    (hj : alGet m K = some j) :
    ∀ (mods arr : List ObjectData) (cur nd : ObjectData),
      cur.key = K →
      (mods.filter fun x => x.key == K).getLast? = some nd →
      (modLoop m mods arr (some cur)).2 = some nd := by
  intro mods
  induction mods with
  | nil => intro arr cur nd hcur hlast; cases hlast
  | cons x rest ih =>
    intro arr cur nd hcur hlast
    rw [List.filter_cons] at hlast
    by_cases hxk : x.key = K
    · rw [if_pos (beq_iff_eq.2 hxk)] at hlast
      have hget : alGet m x.key = some j := by rw [hxk]; exact hj
      simp only [modLoop, hget]
      rw [if_pos (by rw [hcur, hxk])]
      cases hfr : rest.filter (fun y => y.key == K) with
      | nil =>
        rw [hfr, List.getLast?_singleton] at hlast
        have hnd : nd = x := (Option.some.inj hlast).symm
        subst hnd
        apply modLoop_sel_frame
        intro y hy
        have hnone := List.filter_eq_nil_iff.1 hfr y hy
        intro hc
        rw [hxk] at hc
        exact hnone (beq_iff_eq.2 hc)
      | cons z zs =>
        rw [hfr, List.getLast?_cons_cons] at hlast
        exact ih (arr.set j x) x nd hxk (by rw [hfr]; exact hlast)
    · rw [if_neg (by simp [hxk])] at hlast
      cases h : alGet m x.key with
      | some idx =>
        simp only [modLoop, h]
        rw [if_neg (fun hc => hxk (by rw [← hc, hcur]))]
        exact ih (arr.set idx x) cur nd hcur hlast
      | none =>
        simp only [modLoop, h]
        exact ih arr cur nd hcur hlast

theorem getLast?_filter_key {mods : List ObjectData} {K : Int} {nd : ObjectData}
    (h : (mods.filter fun x => x.key == K).getLast? = some nd) : nd.key = K := by
  have hmem : nd ∈ mods.filter fun x => x.key == K := by
    obtain ⟨ys, hys⟩ := List.getLast?_eq_some_iff.1 h
    rw [hys]
    simp
  have := (List.mem_filter.1 hmem).2
  simpa using this

/-- C5: if the currently selected record's key is indexed and appears among
the modified node records of a descriptor, applyIncrementalChange re-points
the selection at the (last) matching new record - no stale copy - provided
no modified link record carries that key; symmetrically, if the selected
key is indexed in the link index and appears among the modified link
records (App.tsx:221-232), the selection is re-pointed at the (last)
matching new link record, provided no modified node record carries that
key; and for any descriptor in which every modified key (node and link)
differs from the selected key, the selection is left untouched. -/
theorem c5_selection_follows_modification
    (s : AppState) (s0 nd : ObjectData) (mods lmods : List ObjectData)
    (c : IncrementalData) (j : Nat)
    (t : AppState) (t0 : ObjectData) (d : IncrementalData)
    (u : AppState) (u0 nd2 : ObjectData) (lmods2 : List ObjectData)
    (e : IncrementalData) (j2 : Nat)
    (hsel : s.selectedData = some s0)
    (hmodsN : c.modifiedNodeData = some mods)
    (hmodsL : c.modifiedLinkData = some lmods)
    (hidx : alGet s.mapNodeKeyIdx s0.key = some j)
    (hlast : (mods.filter fun x => x.key == s0.key).getLast? = some nd)
    (hlink : ∀ ld ∈ lmods, ld.key ≠ s0.key)
    (htsel : t.selectedData = some t0)
    (hframeN : ∀ x ∈ d.modifiedNodeData.getD [], x.key ≠ t0.key)
    (hframeL : ∀ x ∈ d.modifiedLinkData.getD [], x.key ≠ t0.key)
    (husel : u.selectedData = some u0)
    (hemodsL : e.modifiedLinkData = some lmods2)
    (huidx : alGet u.mapLinkKeyIdx u0.key = some j2)
    (hulast : (lmods2.filter fun x => x.key == u0.key).getLast? = some nd2)
    (hunode : ∀ x ∈ e.modifiedNodeData.getD [], x.key ≠ u0.key) :
    (handleModelChange s c).selectedData = some nd ∧
    (handleModelChange t d).selectedData = some t0 ∧
    (handleModelChange u e).selectedData = some nd2 := by
  refine ⟨?_, ?_, ?_⟩
  · have hndk : nd.key = s0.key := getLast?_filter_key hlast
    show (modLoop s.mapLinkKeyIdx (c.modifiedLinkData.getD []) s.linkDataArray
      (modLoop s.mapNodeKeyIdx (c.modifiedNodeData.getD [])
        s.nodeDataArray s.selectedData).2).2 = some nd
    rw [hmodsN, hmodsL, hsel]
    simp only [Option.getD_some]
    rw [modLoop_sel_update s.mapNodeKeyIdx s0.key j hidx mods s.nodeDataArray
      s0 nd rfl hlast]
    exact modLoop_sel_frame s.mapLinkKeyIdx lmods s.linkDataArray nd
      (fun ld hld => by rw [hndk]; exact hlink ld hld)
  · show (modLoop t.mapLinkKeyIdx (d.modifiedLinkData.getD []) t.linkDataArray
      (modLoop t.mapNodeKeyIdx (d.modifiedNodeData.getD [])
        t.nodeDataArray t.selectedData).2).2 = some t0
    rw [htsel]
    rw [modLoop_sel_frame t.mapNodeKeyIdx (d.modifiedNodeData.getD [])
      t.nodeDataArray t0 hframeN]
    exact modLoop_sel_frame t.mapLinkKeyIdx (d.modifiedLinkData.getD [])
      t.linkDataArray t0 hframeL
  · show (modLoop u.mapLinkKeyIdx (e.modifiedLinkData.getD []) u.linkDataArray
      (modLoop u.mapNodeKeyIdx (e.modifiedNodeData.getD [])
        u.nodeDataArray u.selectedData).2).2 = some nd2
    rw [husel]
    rw [modLoop_sel_frame u.mapNodeKeyIdx (e.modifiedNodeData.getD [])
      u.nodeDataArray u0 hunode]
    rw [hemodsL]
    simp only [Option.getD_some]
    exact modLoop_sel_update u.mapLinkKeyIdx u0.key j2 huidx lmods2
      u.linkDataArray u0 nd2 rfl hulast

/-- The modified Alpha record a test descriptor carries. -/
def alphaMod : ObjectData := { key := 0, attrs := [("text", "Alpha3")] }

/-- A descriptor modifying the Alpha node (key 0) only. -/
def modifyAlphaChange : IncrementalData :=
  { emptyChange with modifiedNodeData := some [alphaMod]
                     modifiedLinkData := some [] }

/-- The modified -1 link record a test descriptor carries. -/
def linkMod : ObjectData := { key := -1, attrs := [("from", "0"), ("to", "2")] }

/-- A descriptor modifying the -1 link only. -/
def modifyLinkChange : IncrementalData :=
  { emptyChange with modifiedLinkData := some [linkMod] }

/-- Witness for c5_selection_follows_modification: with Alpha (key 0)
selected, modifying node key 0 re-points the selection at the new record;
with the -1 link selected, a descriptor touching keys 4 and 0 leaves the
selection alone, while one modifying link key -1 re-points it at the new
link record. -/
theorem c5_witness :
    (handleModelChange nodeSelState modifyAlphaChange).selectedData = some alphaMod ∧
    (handleModelChange linkSelState sampleChange).selectedData = some linkRec ∧
    (handleModelChange linkSelState modifyLinkChange).selectedData = some linkMod :=
  c5_selection_follows_modification nodeSelState nodeRec alphaMod [alphaMod] []
    modifyAlphaChange 0 linkSelState linkRec sampleChange
    linkSelState linkRec linkMod [linkMod] modifyLinkChange 0
    (by decide) (by decide) (by decide) (by decide) (by decide) (by decide)
    (by decide) (by decide) (by decide) (by decide) (by decide) (by decide)
    (by decide) (by decide)

/-! Machinery for the idempotence of insertion descriptors: the last
record in the modified list carrying a given key is what both the
modified-data map and the array end up holding. -/

/-- The last record in the modified-records list whose key is k. -/
def lastMod (mods : List ObjectData) (k : Int) : Option ObjectData :=
  (mods.filter (fun x => x.key == k)).getLast?

theorem alGet_foldl_alSet_last :
    ∀ (mods : List ObjectData) (acc : List (Int × ObjectData)) (k : Int),
      alGet (mods.foldl (fun m x => alSet m x.key x) acc) k =
        match lastMod mods k with
        | some nd => some nd
        | none => alGet acc k := by
  intro mods
  induction mods with
  | nil => intro acc k; rfl
  | cons x rest ih =>
    intro acc k
    rw [List.foldl_cons, ih]
    by_cases hxk : x.key = k
    · show _ = (match (List.filter (fun x => x.key == k) (x :: rest)).getLast? with
        | some nd => some nd
        | none => alGet acc k)
      rw [List.filter_cons, if_pos (beq_iff_eq.2 hxk), List.getLast?_cons]
      cases hlm : lastMod rest k with
      | some y =>
        have : (List.filter (fun x => x.key == k) rest).getLast? = some y := hlm
        rw [this]
        rfl
      | none =>
        have : (List.filter (fun x => x.key == k) rest).getLast? = none := hlm
        rw [this]
        rw [alGet_alSet, if_pos hxk]
        rfl
    · show _ = (match (List.filter (fun x => x.key == k) (x :: rest)).getLast? with
        | some nd => some nd
        | none => alGet acc k)
      rw [List.filter_cons, if_neg (by simp [hxk])]
      cases hlm : lastMod rest k with
      | some y =>
        have : (List.filter (fun x => x.key == k) rest).getLast? = some y := hlm
        rw [this]
      | none =>
        have : (List.filter (fun x => x.key == k) rest).getLast? = none := hlm
        rw [this]
        rw [alGet_alSet, if_neg hxk]

theorem buildModMap_last (mods : List ObjectData) (k : Int) :
    alGet (buildModMap mods) k = lastMod mods k := by
  rw [buildModMap, alGet_foldl_alSet_last mods [] k]
  cases lastMod mods k with
  | some nd => rfl
  | none => rfl

/-- Under the invariant, filtering the modified list by target position i
is the same as filtering it by the key the index maps to i. -/
theorem filter_pos_eq_filter_key {m : List (Int × Nat)} {arr : List ObjectData}
    (hInv : keyInv m arr) {k : Int} {i : Nat} (hki : alGet m k = some i)
    (mods : List ObjectData) :
    mods.filter (fun x => alGet m x.key == some i) =
      mods.filter (fun x => x.key == k) := by
  apply List.filter_congr
  intro x hx
  by_cases hxe : x.key = k
  · rw [hxe, hki]
    simp
  · have h1 : (x.key == k) = false := beq_eq_false_iff_ne.2 hxe
    rw [h1]
    cases hxg : alGet m x.key with
    | none => rfl
    | some j =>
      by_cases hji : j = i
      · subst hji
        exact absurd (keyInv_inj hInv hxg hki) hxe
      · exact beq_eq_false_iff_ne.2 (fun hc => hji (Option.some.inj hc))

/-- The array reflects the modified list: every indexed key that has a
modified record holds the last such record at its indexed position. -/
def reflectsMods (mods : List ObjectData) (m : List (Int × Nat))
    (arr : List ObjectData) : Prop :=
  ∀ k i nd, alGet m k = some i → lastMod mods k = some nd → arr[i]? = some nd

theorem modLoop_reflects {m : List (Int × Nat)} {arr : List ObjectData}
    (h : keyInv m arr) (mods : List ObjectData) (sel : Option ObjectData) :
    reflectsMods mods m (modLoop m mods arr sel).1 := by
  intro k i nd hget hlast
  rw [modLoop_get m mods arr sel i (fun k j hk => keyInv_bound h hk)]
  rw [filter_pos_eq_filter_key h hget mods]
  have : (mods.filter (fun x => x.key == k)).getLast? = some nd := hlast
  rw [this]

theorem modLoop_fix {mods : List ObjectData} {m : List (Int × Nat)}
    {arr : List ObjectData} (hInv : keyInv m arr)
    (hQ : reflectsMods mods m arr) (sel : Option ObjectData) :
    (modLoop m mods arr sel).1 = arr := by
  apply List.ext_getElem?
  intro i
  rw [modLoop_get m mods arr sel i (fun k j hk => keyInv_bound hInv hk)]
  cases hfl : (mods.filter (fun x => alGet m x.key == some i)).getLast? with
  | none => rfl
  | some nd =>
    have hmem : nd ∈ mods.filter (fun x => alGet m x.key == some i) := by
      obtain ⟨ys, hys⟩ := List.getLast?_eq_some_iff.1 hfl
      rw [hys]
      simp
    have hpred : alGet m nd.key = some i := by
      simpa using (List.mem_filter.1 hmem).2
    have hfl2 : (mods.filter (fun x => x.key == nd.key)).getLast? = some nd := by
      rw [← filter_pos_eq_filter_key hInv hpred mods]
      exact hfl
    have harr := hQ nd.key i nd hpred hfl2
    exact harr.symm

theorem insLoop_reflects (mods : List ObjectData) (modMap : List (Int × ObjectData))
    (hok : ∀ k nd, alGet modMap k = some nd → nd.key = k)
    (hmapeq : ∀ k, alGet modMap k = lastMod mods k) :
    ∀ (ks : List Int) (arr : List ObjectData) (m : List (Int × Nat)),
      reflectsMods mods m arr →
      reflectsMods mods (insLoop modMap ks arr m).2 (insLoop modMap ks arr m).1 := by
  intro ks
  induction ks with
  | nil => intro arr m h; exact h
  | cons k0 rest ih =>
    intro arr m h
    cases hmg : alGet modMap k0 with
    | none =>
      cases hg : alGet m k0 with
      | none => simp only [insLoop, hmg, hg]; exact ih arr m h
      | some j => simp only [insLoop, hmg, hg]; exact ih arr m h
    | some nd =>
      cases hg : alGet m k0 with
      | some j => simp only [insLoop, hmg, hg]; exact ih arr m h
      | none =>
        simp only [insLoop, hmg, hg]
        apply ih
        intro k i x hget hlast
        have hndk : nd.key = k0 := hok k0 nd hmg
        rw [alGet_alSet] at hget
        by_cases hkk : nd.key = k
        · rw [if_pos hkk] at hget
          have hi : i = arr.length := (Option.some.inj hget).symm
          subst hi
          have hk0k : k0 = k := by rw [← hndk, hkk]
          have hxnd : lastMod mods k = some nd := by
            rw [← hmapeq k, ← hk0k]
            exact hmg
          rw [hxnd] at hlast
          have hx : x = nd := (Option.some.inj hlast).symm
          subst hx
          rw [List.getElem?_append_right (Nat.le_refl _), Nat.sub_self]
          rfl
        · rw [if_neg hkk] at hget
          have harr := h k i x hget hlast
          have hlt : i < arr.length := by
            obtain ⟨hlt, _⟩ := List.getElem?_eq_some_iff.1 harr
            exact hlt
          rw [List.getElem?_append, if_pos hlt]
          exact harr

/-- Applying the modification and insertion phases of one collection a
second time, from the state the first application produced, changes
nothing: the modification pass rewrites every slot with the value it
already holds and the insertion pass finds every insertable key already
indexed. -/
theorem collection_idem (m0 : List (Int × Nat)) (arr0 mods : List ObjectData)
    (ks : List Int) (sel0 sel1 : Option ObjectData) (h0 : keyInv m0 arr0)
    (arr1 : List ObjectData) (m1 : List (Int × Nat))
    (hp : insLoop (buildModMap mods) ks (modLoop m0 mods arr0 sel0).1 m0 = (arr1, m1)) :
    insLoop (buildModMap mods) ks (modLoop m1 mods arr1 sel1).1 m1 = (arr1, m1) := by
  have hok := buildModMap_key mods
  have hInvM := modLoop_keyInv h0 mods sel0
  have hInv1 : keyInv m1 arr1 := by
    have h2 := insLoop_keyInv (buildModMap mods) hok ks
      (modLoop m0 mods arr0 sel0).1 m0 hInvM
    rw [hp] at h2
    exact h2
  have hQ1 : reflectsMods mods m1 arr1 := by
    have h2 := insLoop_reflects mods (buildModMap mods) hok (buildModMap_last mods)
      ks (modLoop m0 mods arr0 sel0).1 m0 (modLoop_reflects h0 mods sel0)
    rw [hp] at h2
    exact h2
  rw [modLoop_fix hInv1 hQ1 sel1]
  apply insLoop_noop
  intro k hk
  cases hmg : alGet (buildModMap mods) k with
  | none => exact Or.inl rfl
  | some nd =>
    right
    have hcov := insLoop_covers (buildModMap mods) hok ks
      (modLoop m0 mods arr0 sel0).1 m0 k hk (by rw [hmg]; rfl)
    rw [hp] at hcov
    exact hcov

/-! The components of handleModelChange when the matching removal list is
absent. -/

theorem hmc_nodes_noRemoval (s : AppState) (c : IncrementalData)
    (h : c.removedNodeKeys = none) :
    (handleModelChange s c).nodeDataArray =
      (insLoop (buildModMap (c.modifiedNodeData.getD [])) (c.insertedNodeKeys.getD [])
        (modLoop s.mapNodeKeyIdx (c.modifiedNodeData.getD [])
          s.nodeDataArray s.selectedData).1 s.mapNodeKeyIdx).1 := by
  show (applyRemovals c.removedNodeKeys _ _).1 = _
  rw [h]
  rfl

theorem hmc_nodeMap_noRemoval (s : AppState) (c : IncrementalData)
    (h : c.removedNodeKeys = none) :
    (handleModelChange s c).mapNodeKeyIdx =
      (insLoop (buildModMap (c.modifiedNodeData.getD [])) (c.insertedNodeKeys.getD [])
        (modLoop s.mapNodeKeyIdx (c.modifiedNodeData.getD [])
          s.nodeDataArray s.selectedData).1 s.mapNodeKeyIdx).2 := by
  show (applyRemovals c.removedNodeKeys _ _).2 = _
  rw [h]
  rfl

theorem hmc_links_noRemoval (s : AppState) (c : IncrementalData)
    (h : c.removedLinkKeys = none) :
    (handleModelChange s c).linkDataArray =
      (insLoop (buildModMap (c.modifiedLinkData.getD [])) (c.insertedLinkKeys.getD [])
        (modLoop s.mapLinkKeyIdx (c.modifiedLinkData.getD []) s.linkDataArray
          (modLoop s.mapNodeKeyIdx (c.modifiedNodeData.getD [])
            s.nodeDataArray s.selectedData).2).1 s.mapLinkKeyIdx).1 := by
  show (applyRemovals c.removedLinkKeys _ _).1 = _
  rw [h]
  rfl

theorem hmc_linkMap_noRemoval (s : AppState) (c : IncrementalData)
    (h : c.removedLinkKeys = none) :
    (handleModelChange s c).mapLinkKeyIdx =
      (insLoop (buildModMap (c.modifiedLinkData.getD [])) (c.insertedLinkKeys.getD [])
        (modLoop s.mapLinkKeyIdx (c.modifiedLinkData.getD []) s.linkDataArray
          (modLoop s.mapNodeKeyIdx (c.modifiedNodeData.getD [])
            s.nodeDataArray s.selectedData).2).1 s.mapLinkKeyIdx).2 := by
  show (applyRemovals c.removedLinkKeys _ _).2 = _
  rw [h]
  rfl

/-- C2: applying the same insertion descriptor (one with no removal lists)
a second time leaves both canonical arrays exactly as the first application
left them; and, as a single step, an inserted key that is already present
in the index, or that has no matching record in the modified-records list,
changes neither the array nor the index (in particular the data carried
alongside the insertion is not reconciled into the already-present
record). -/
theorem c2_insertion_idempotent
    (s : AppState) (c : IncrementalData)
    (modMap : List (Int × ObjectData)) (k0 : Int) (ks : List Int)
    (arr : List ObjectData) (m : List (Int × Nat))
    (hN : keyInv s.mapNodeKeyIdx s.nodeDataArray)
    (hL : keyInv s.mapLinkKeyIdx s.linkDataArray)
    (hremN : c.removedNodeKeys = none) (hremL : c.removedLinkKeys = none)
    (hnoop : alGet modMap k0 = none ∨ (alGet m k0).isSome) :
    (handleModelChange (handleModelChange s c) c).nodeDataArray =
      (handleModelChange s c).nodeDataArray ∧
    (handleModelChange (handleModelChange s c) c).linkDataArray =
      (handleModelChange s c).linkDataArray ∧
    insLoop modMap (k0 :: ks) arr m = insLoop modMap ks arr m := by
  refine ⟨?_, ?_, ?_⟩
  · rw [hmc_nodes_noRemoval (handleModelChange s c) c hremN,
      hmc_nodeMap_noRemoval s c hremN, hmc_nodes_noRemoval s c hremN]
    exact congrArg Prod.fst (collection_idem s.mapNodeKeyIdx s.nodeDataArray
      (c.modifiedNodeData.getD []) (c.insertedNodeKeys.getD [])
      s.selectedData (handleModelChange s c).selectedData hN _ _ rfl)
  · rw [hmc_links_noRemoval (handleModelChange s c) c hremL,
      hmc_linkMap_noRemoval s c hremL, hmc_links_noRemoval s c hremL]
    exact congrArg Prod.fst (collection_idem s.mapLinkKeyIdx s.linkDataArray
      (c.modifiedLinkData.getD []) (c.insertedLinkKeys.getD [])
      (modLoop s.mapNodeKeyIdx (c.modifiedNodeData.getD [])
        s.nodeDataArray s.selectedData).2
      (modLoop (handleModelChange s c).mapNodeKeyIdx (c.modifiedNodeData.getD [])
        (handleModelChange s c).nodeDataArray (handleModelChange s c).selectedData).2
      hL _ _ rfl)
  · cases hnoop with
    | inl hz =>
      cases hg : alGet m k0 with
      | none => simp only [insLoop, hz, hg]
      | some j => simp only [insLoop, hz, hg]
    | inr hz =>
      cases hg : alGet m k0 with
      | none => rw [hg] at hz; cases hz
      | some j =>
        cases hmg : alGet modMap k0 with
        | none => simp only [insLoop, hmg, hg]
        | some nd => simp only [insLoop, hmg, hg]

/-- An insertion descriptor: node key 4 and link key -6, each with its data
in the corresponding modified list, nothing removed. -/
def insertChange : IncrementalData :=
  { emptyChange with
    insertedNodeKeys := some [4]
    modifiedNodeData := some [{ key := 4, attrs := [("text", "New")] }]
    insertedLinkKeys := some [-6]
    modifiedLinkData := some [{ key := -6, attrs := [("from", "0"), ("to", "3")] }] }

/-- Witness for c2_insertion_idempotent: re-delivering the insertion of
node 4 / link -6 to the initial state changes nothing, and the single-step
no-op fires on a key that is already indexed. -/
theorem c2_witness :
    keyInv initialAppState.mapNodeKeyIdx initialAppState.nodeDataArray ∧
    (handleModelChange (handleModelChange initialAppState insertChange)
        insertChange).nodeDataArray =
      (handleModelChange initialAppState insertChange).nodeDataArray ∧
    (handleModelChange (handleModelChange initialAppState insertChange)
        insertChange).linkDataArray =
      (handleModelChange initialAppState insertChange).linkDataArray ∧
    insLoop (buildModMap [{ key := 4, attrs := [("text", "New")] }]) [(4 : Int)]
        [] [((4 : Int), (0 : Nat))] =
      insLoop (buildModMap [{ key := 4, attrs := [("text", "New")] }]) []
        [] [((4 : Int), (0 : Nat))] := by
  have hN : keyInv initialAppState.mapNodeKeyIdx initialAppState.nodeDataArray :=
    keyInv_refresh initNodes (by decide)
  have hL : keyInv initialAppState.mapLinkKeyIdx initialAppState.linkDataArray :=
    keyInv_refresh initLinks (by decide)
  have h := c2_insertion_idempotent initialAppState insertChange
    (buildModMap [{ key := 4, attrs := [("text", "New")] }]) 4 []
    [] [((4 : Int), (0 : Nat))] hN hL rfl rfl (Or.inr (by decide))
  exact ⟨hN, h.1, h.2.1, h.2.2⟩
